import Mathlib

/-!
Shallow embedding of the nit-hunting scanner script (tools/hunt_nits.py) and
proofs about the claims of its specification.

The script walks the current working directory: every immediate child
directory whose name starts with "kosmos" is a scan root; under each root all
entries matching "*.kt" are enumerated recursively (sorted by full path
string), entries with a path component in SKIP_DIRS are skipped, each readable
file is split into lines and every line is tested against the three
word-boundary-anchored literal regexes in NITS, hit lines are printed with the
matched substrings wrapped in ANSI color markers when stdout is a terminal,
and the process exits 1 when any hit was found, 0 otherwise.

Strings are modelled as Lean String / List Char.  The three regexes of the
script are each a literal token behind a leading word-boundary anchor (the
third also has a trailing one), so they are embedded as boundary-anchored
literal searches.  Word characters are modelled as ASCII alphanumerics and
the underscore, the ASCII fragment of the semantics of a word character in
the script's regex engine; every token of the rule table and every input
considered here is ASCII.
-/

namespace HuntNits

/-- A word character: ASCII letter, digit, or underscore. -/
def isWordChar (c : Char) : Bool :=
  c.isAlphanum || c == '_'

/-- One compiled rule regex.  Every regex of the rule table is a literal
token guarded by a word-boundary anchor in front (field bBefore) and,
for the third rule, behind (field bAfter), so a compiled pattern is the
token together with the two anchor flags. -/
structure Pattern where
  token : List Char
  bBefore : Bool
  bAfter : Bool
deriving DecidableEq

/-- The word-boundary test in front of a match: satisfied at the start of the
string or after a non-word character.  (All tokens of the rule table start
with a word character, for which the boundary anchor has exactly this
meaning; prev is the character directly before the candidate position.) -/
def boundaryBeforeOk : Option Char → Bool
  | none => true
  | some c => !(isWordChar c)

/-- The word-boundary test behind a match: satisfied at the end of the string
or before a non-word character.  (The one token with a trailing anchor ends
with a word character.) -/
def boundaryAfterOk : List Char → Bool
  | [] => true
  | c :: _ => !(isWordChar c)

/-- Does pattern p match exactly at the start of s, where prev is the
character directly before s in the scanned line (none at line start)? -/
def matchesHere (p : Pattern) (prev : Option Char) (s : List Char) : Bool :=
  p.token.isPrefixOf s
    && (!p.bBefore || boundaryBeforeOk prev)
    && (!p.bAfter || boundaryAfterOk (s.drop p.token.length))

/-- Scan of pattern p over the remainder s of a line, prev being the
character directly before s; true when p matches anywhere in s. -/
def searchFrom (p : Pattern) (prev : Option Char) : List Char → Bool
  | [] => false
  | c :: rest => matchesHere p prev (c :: rest) || searchFrom p (some c) rest

/-- pat.search(line): does p match anywhere in the line? -/
def search (p : Pattern) (line : List Char) : Bool :=
  searchFrom p none line

/-- One step of pat.sub: replace every (non-overlapping, left-to-right) match
of p in the remainder by repl.  prev is the character directly before the
remainder; skip counts characters of a recognised match that are still to be
consumed without being copied (the matched text was already replaced by repl
when the match was recognised), so the scan resumes behind the matched token
and the boundary test at the resume position sees the token's last character
as prev. -/
def subFrom (p : Pattern) (repl : List Char) (skip : Nat) (prev : Option Char) :
    List Char → List Char
  | [] => []
  | c :: rest =>
    match skip with
    | sk + 1 => subFrom p repl sk (some c) rest
    | 0 =>
      if matchesHere p prev (c :: rest) then
        repl ++ subFrom p repl (p.token.length - 1) (some c) rest
      else
        c :: subFrom p repl 0 (some c) rest

/-- pat.sub(repl, line) for a constant replacement string repl. -/
def sub (p : Pattern) (repl : List Char) (line : List Char) : List Char :=
  subFrom p repl 0 none line

/-- The non-matched stretches of one substitution pass, in scan order: the
text before the first matched occurrence of p, between consecutive matched
occurrences, and after the last one.  Mirrors the recursion of subFrom with
the replacement abstracted away, so that the pass's output is exactly these
stretches interleaved with the replacement string. -/
def subGaps (p : Pattern) (skip : Nat) (prev : Option Char) :
    List Char → List (List Char)
  | [] => [[]]
  | c :: rest =>
    match skip with
    | sk + 1 => subGaps p sk (some c) rest
    | 0 =>
      if matchesHere p prev (c :: rest) then
        [] :: subGaps p (p.token.length - 1) (some c) rest
      else
        match subGaps p 0 (some c) rest with
        | [] => [[c]]
        | g :: gs => (c :: g) :: gs

/-- Interleave a separator between stretches:
g0 ++ sep ++ g1 ++ sep ++ ... ++ gn. -/
def joinGaps (sep : List Char) : List (List Char) → List Char
  | [] => []
  | g :: gs => g ++ gs.flatMap fun h => sep ++ h

/-- The ANSI bright-red marker written before a match in terminal mode. -/
def RED : String := "\x1b[91m"

/-- The ANSI reset marker written after a match in terminal mode. -/
def RESET : String := "\x1b[0m"

/-- Compiled form of the regex of Rule A. -/
def patEq : Pattern := ⟨"eq.eqv(".data, true, false⟩

/-- Compiled form of the regex of Rule B. -/
def patPr : Pattern := ⟨"pr.render(".data, true, false⟩

/-- Compiled form of the regex of Rule C. -/
def patPrintable : Pattern := ⟨"Printable.Companion".data, true, true⟩

/-- The fixed rule table NITS: (compiled matcher, label) pairs, in scan
order. -/
def NITS : List (Pattern × String) :=
  [(patEq, "eq.eqv("), (patPr, "pr.render("), (patPrintable, "Printable.Companion")]

/-- The directory names whose presence anywhere in a path causes a candidate
file to be skipped. -/
def SKIP_DIRS : List String :=
  ["build", ".gradle", "out", ".idea", ".git"]

/-! ### Splitting file content into lines

The script reads a file as text and calls splitlines(), which cuts the
string at every line-boundary character (newline, carriage return, a
carriage-return/newline pair counting as one boundary, vertical tab, form
feed, the separator control characters 0x1c-0x1e, next line, line separator,
paragraph separator) and keeps no trailing artifact for a final boundary. -/

/-- The line-boundary characters recognised by splitlines(). -/
def isLineBreak (c : Char) : Bool :=
  c == '\n' || c == '\r' || c == '\x0b' || c == '\x0c' || c == '\x1c' ||
    c == '\x1d' || c == '\x1e' || c == '\x85' || c == '\u2028' || c == '\u2029'

/-- Worker for splitlines: acc holds the current (reversed) line, and
afterCR records that the directly preceding character was a carriage return
that already ended a line, so that a newline right after it is swallowed (a
carriage-return/newline pair is one boundary). -/
def splitlinesAux (afterCR : Bool) (acc : List Char) : List Char → List (List Char)
  | [] => if acc.isEmpty then [] else [acc.reverse]
  | c :: rest =>
    if afterCR && c == '\n' then splitlinesAux false acc rest
    else if isLineBreak c then acc.reverse :: splitlinesAux (c == '\r') [] rest
    else splitlinesAux false (c :: acc) rest

/-- content.splitlines() on a character list. -/
def splitlinesList (s : List Char) : List (List Char) :=
  splitlinesAux false [] s

/-- content.splitlines() on a string. -/
def splitlines (s : String) : List String :=
  (splitlinesList s.data).map fun l => String.mk l

/-! ### Scanning the lines of one file -/

/-- One recorded hit line: 1-based line number, raw line text, and the
matchers that fired on the line, in rule-table order. -/
structure LineMatch where
  lineNum : Nat
  text : String
  hits : List Pattern
deriving DecidableEq

/-- The matchers of the rule table that fire on a line, in table order
([pat for pat, _ in NITS if pat.search(line)]). -/
def lineHits (nits : List (Pattern × String)) (line : String) : List Pattern :=
  nits.filterMap fun pr => if search pr.1 line.data then some pr.1 else none

/-- Worker for the line loop: n is the number of the first line of the
remaining list (enumerate(lines, start=1)). -/
def scanLinesAux (nits : List (Pattern × String)) (n : Nat) :
    List String → List LineMatch
  | [] => []
  | line :: rest =>
    if (lineHits nits line).isEmpty then scanLinesAux nits (n + 1) rest
    else ⟨n, line, lineHits nits line⟩ :: scanLinesAux nits (n + 1) rest

/-- The matches list the script builds for one file's lines. -/
def scanLines (nits : List (Pattern × String)) (lines : List String) :
    List LineMatch :=
  scanLinesAux nits 1 lines

/-! ### Highlight rendering -/

/-- The replacement string the substitution lambda produces for a match of p:
the matched text (always the token, the regexes being literal) wrapped in the
color markers when color is on, the matched text alone otherwise. -/
def replFor (color : Bool) (p : Pattern) : List Char :=
  if color then RED.data ++ p.token ++ RESET.data else p.token

/-- One substitution pass over a (partially highlighted) line. -/
def subColor (color : Bool) (p : Pattern) (l : List Char) : List Char :=
  sub p (replFor color p) l

/-- The highlighted rendering of a hit line: every hit matcher's substitution
applied in turn, each over the already-substituted text. -/
def highlightLine (color : Bool) (hits : List Pattern) (line : List Char) :
    List Char :=
  hits.foldl (fun h p => subColor color p h) line

/-- The report line printed for one hit: line number, ": ", rendering. -/
def renderMatch (color : Bool) (m : LineMatch) : String :=
  toString m.lineNum ++ ": " ++ String.mk (highlightLine color m.hits m.text.data)

/-! ### The filesystem model

A filesystem is the list of entries under the working directory, each entry a
relative path (its non-empty list of components) together with what the entry
is: a directory, or a file whose read yields text, fails to decode, or is
denied.  The order of the entry list is the (arbitrary) iteration order of
the filesystem; the script sorts before using it. -/

/-- What one directory entry is, and what reading it yields. -/
inductive FileData where
  /-- A file whose read succeeds with text s. -/
  | text (s : String)
  /-- A file whose read raises a decoding error. -/
  | undecodable
  /-- A file whose read raises a permission error. -/
  | permissionDenied
deriving DecidableEq

/-- One entry of the scanned tree. -/
inductive EntryKind where
  /-- A directory; reading it raises an error outside the caught set. -/
  | dir
  /-- A regular file. -/
  | file (d : FileData)
deriving DecidableEq

/-- A directory entry: its path components relative to the working
directory, and its kind. -/
structure Entry where
  path : List String
  kind : EntryKind
deriving DecidableEq

/-- A filesystem: all entries of the tree, in iteration order. -/
structure FS where
  entries : List Entry
deriving DecidableEq

/-- The relative path as printed: components joined by the separator. -/
def pathString (p : List String) : String :=
  String.intercalate "/" p

/-! ### The order in which paths are visited

sorted() on paths compares them componentwise: two paths are compared by
their first differing component (components compared as strings by code
point) and otherwise by length.  Sorting is stable, so it is modelled by
insertion sort under the non-strict comparison below. -/

/-- Strict code-point comparison of strings as character lists. -/
def charListLt : List Char → List Char → Bool
  | [], [] => false
  | [], _ :: _ => true
  | _ :: _, [] => false
  | a :: as, b :: bs =>
    if a < b then true else if b < a then false else charListLt as bs

/-- Strict componentwise comparison of relative paths. -/
def pathLt : List String → List String → Bool
  | [], [] => false
  | [], _ :: _ => true
  | _ :: _, [] => false
  | a :: as, b :: bs =>
    if charListLt a.data b.data then true
    else if charListLt b.data a.data then false
    else pathLt as bs

/-- The non-strict visiting order on entries: e before f unless f's path is
strictly smaller. -/
def entryLe (e f : Entry) : Prop :=
  pathLt f.path e.path = false

instance : DecidableRel entryLe :=
  fun e f => instDecidableEqBool (pathLt f.path e.path) false

/-- Is this entry an immediate child directory of the working directory
whose name starts with the root prefix (d.is_dir() and
d.name.startswith("kosmos"))? -/
def isKosmosRoot (e : Entry) : Bool :=
  match e.path, e.kind with
  | [n], .dir => "kosmos".data.isPrefixOf n.data
  | _, _ => false

/-- The candidate scan roots, in iteration order. -/
def kosmosRoots (fs : FS) : List Entry :=
  fs.entries.filter isKosmosRoot

/-- The candidate scan roots, sorted (sorted(kosmos_dirs)). -/
def sortedRoots (fs : FS) : List Entry :=
  (kosmosRoots fs).insertionSort entryLe

/-- Does this entry match the recursive glob for "*.kt" under root d: it
lies strictly below d and its final component ends in ".kt"?  (The glob
matches by name only, so directories are matched too.) -/
def matchesGlobUnder (d : Entry) (e : Entry) : Bool :=
  match d.path, e.path with
  | [n], c :: _ :: _ => n == c && ".kt".data.isSuffixOf (e.path.getLastD "").data
  | _, _ => false

/-- The entries d.rglob("*.kt") yields, in iteration order. -/
def filesUnder (fs : FS) (d : Entry) : List Entry :=
  fs.entries.filter (matchesGlobUnder d)

/-- sorted(kosmos_dir.rglob("*.kt")). -/
def sortedFilesUnder (fs : FS) (d : Entry) : List Entry :=
  (filesUnder fs d).insertionSort entryLe

/-- All candidate files, in visiting order: roots sorted, files sorted
within each root. -/
def enumerateFiles (fs : FS) : List Entry :=
  (sortedRoots fs).flatMap fun d => sortedFilesUnder fs d

/-! ### Processing one candidate file and the whole run -/

/-- The error that aborts a run: reading an entry raises an exception
outside the caught (UnicodeDecodeError, PermissionError) set, as reading a
directory does. -/
inductive RunError where
  | isADirectory
deriving DecidableEq

/-- The body of the file loop for one candidate entry.  Yields the lines the
iteration prints together with the file report (path and matches) when the
file has hits, none otherwise; an entry with a skipped path component or an
unreadable file contributes nothing. -/
def processFile (nits : List (Pattern × String)) (color : Bool) (e : Entry) :
    Except RunError (List String × Option (String × List LineMatch)) :=
  if e.path.any (fun part => SKIP_DIRS.contains part) then
    .ok ([], none)
  else
    match e.kind with
    | .dir => .error .isADirectory
    | .file .undecodable => .ok ([], none)
    | .file .permissionDenied => .ok ([], none)
    | .file (.text s) =>
      if (scanLines nits (splitlines s)).isEmpty then .ok ([], none)
      else
        .ok (pathString e.path ::
            (scanLines nits (splitlines s)).map (renderMatch color) ++ [""],
          some (pathString e.path, scanLines nits (splitlines s)))

/-- The running accumulation of the file loop: the printed lines, the file
reports in print order, and the any_hits flag. -/
structure ScanAcc where
  out : List String
  reports : List (String × List LineMatch)
  anyHits : Bool
deriving DecidableEq

/-- The file loop over a list of candidate files, first to last; an uncaught
read error aborts the whole run. -/
def runFiles (nits : List (Pattern × String)) (color : Bool) :
    List Entry → Except RunError ScanAcc
  | [] => .ok ⟨[], [], false⟩
  | e :: rest =>
    match processFile nits color e with
    | .error err => .error err
    | .ok pr =>
      match runFiles nits color rest with
      | .error err => .error err
      | .ok acc =>
        .ok ⟨pr.1 ++ acc.out,
          (match pr.2 with | some r => r :: acc.reports | none => acc.reports),
          pr.2.isSome || acc.anyHits⟩

/-- The observable outcome of a completed run: everything printed to stdout
(one list element per printed line), the reports the loop produced, and the
process exit code. -/
structure RunResult where
  output : List String
  reports : List (String × List LineMatch)
  exitCode : Nat
deriving DecidableEq

/-- One whole run of the script over filesystem fs, with rule table nits and
terminal flag color: enumerate the candidate files in visiting order, process
each, exit 1 when any hit was found and 0 otherwise. -/
def run (nits : List (Pattern × String)) (color : Bool) (fs : FS) :
    Except RunError RunResult :=
  match runFiles nits color (enumerateFiles fs) with
  | .error err => .error err
  | .ok acc => .ok ⟨acc.out, acc.reports, if acc.anyHits then 1 else 0⟩

end HuntNits

deriving instance DecidableEq for Except

namespace HuntNits

/-! ### Properties of the visiting order -/

theorem charListLt_irrefl : ∀ a : List Char, charListLt a a = false
  | [] => rfl
  | c :: cs => by
    simp only [charListLt, lt_irrefl, if_false]
    exact charListLt_irrefl cs

theorem charListLt_asymm : ∀ {a b : List Char},
    charListLt a b = true → charListLt b a = false
  | [], [], h => by simp [charListLt] at h
  | [], _ :: _, _ => rfl
  | _ :: _, [], h => by simp [charListLt] at h
  | a :: as, b :: bs, h => by
    simp only [charListLt] at h ⊢
    rcases lt_trichotomy a b with hab | hab | hab
    · simp [hab, not_lt_of_lt hab]
    · subst hab
      simp only [lt_irrefl, if_false] at h ⊢
      exact charListLt_asymm h
    · simp [hab, not_lt_of_lt hab] at h

theorem charListLt_eq_of_not : ∀ {a b : List Char},
    charListLt a b = false → charListLt b a = false → a = b
  | [], [], _, _ => rfl
  | [], _ :: _, h, _ => by simp [charListLt] at h
  | _ :: _, [], _, h => by simp [charListLt] at h
  | a :: as, b :: bs, h, h' => by
    simp only [charListLt] at h h'
    rcases lt_trichotomy a b with hab | hab | hab
    · simp [hab] at h
    · subst hab
      simp only [lt_irrefl, if_false] at h h'
      rw [charListLt_eq_of_not h h']
    · simp [hab] at h'

theorem charListLt_trans : ∀ {a b c : List Char},
    charListLt a b = true → charListLt b c = true → charListLt a c = true
  | [], [], _, h, _ => by simp [charListLt] at h
  | [], _ :: _, [], _, h => by simp [charListLt] at h
  | [], _ :: _, _ :: _, _, _ => rfl
  | _ :: _, [], _, h, _ => by simp [charListLt] at h
  | _ :: _, _ :: _, [], _, h => by simp [charListLt] at h
  | a :: as, b :: bs, c :: cs, h, h' => by
    simp only [charListLt] at h h' ⊢
    rcases lt_trichotomy a b with hab | hab | hab
    · rcases lt_trichotomy b c with hbc | hbc | hbc
      · simp [lt_trans hab hbc]
      · subst hbc
        simp [hab]
      · simp [hbc, not_lt_of_lt hbc] at h'
    · subst hab
      rcases lt_trichotomy a c with hac | hac | hac
      · simp [hac]
      · subst hac
        simp only [lt_irrefl, if_false] at h h' ⊢
        exact charListLt_trans h h'
      · simp [hac, not_lt_of_lt hac] at h'
    · simp [hab, not_lt_of_lt hab] at h

theorem pathLt_asymm : ∀ {p q : List String},
    pathLt p q = true → pathLt q p = false
  | [], [], h => by simp [pathLt] at h
  | [], _ :: _, _ => rfl
  | _ :: _, [], h => by simp [pathLt] at h
  | a :: as, b :: bs, h => by
    simp only [pathLt] at h ⊢
    by_cases hab : charListLt a.data b.data = true
    · simp [hab, charListLt_asymm hab]
    · replace hab : charListLt a.data b.data = false := by
        simpa using hab
      by_cases hba : charListLt b.data a.data = true
      · simp [hab, hba] at h
      · replace hba : charListLt b.data a.data = false := by
          simpa using hba
        simp only [hab, hba, Bool.false_eq_true, if_false] at h ⊢
        exact pathLt_asymm h

theorem pathLt_eq_of_not : ∀ {p q : List String},
    pathLt p q = false → pathLt q p = false → p = q
  | [], [], _, _ => rfl
  | [], _ :: _, h, _ => by simp [pathLt] at h
  | _ :: _, [], _, h => by simp [pathLt] at h
  | a :: as, b :: bs, h, h' => by
    simp only [pathLt] at h h'
    by_cases hab : charListLt a.data b.data = true
    · simp [hab] at h
    · replace hab : charListLt a.data b.data = false := by simpa using hab
      by_cases hba : charListLt b.data a.data = true
      · simp [hab, hba] at h'
      · replace hba : charListLt b.data a.data = false := by simpa using hba
        simp only [hab, hba, Bool.false_eq_true, if_false] at h h'
        have hd : a.data = b.data := charListLt_eq_of_not hab hba
        have : a = b := congrArg String.mk hd
        rw [this, pathLt_eq_of_not h h']

theorem pathLt_trans : ∀ {p q r : List String},
    pathLt p q = true → pathLt q r = true → pathLt p r = true
  | [], [], _, h, _ => by simp [pathLt] at h
  | [], _ :: _, [], _, h => by simp [pathLt] at h
  | [], _ :: _, _ :: _, _, _ => rfl
  | _ :: _, [], _, h, _ => by simp [pathLt] at h
  | _ :: _, _ :: _, [], _, h => by simp [pathLt] at h
  | a :: as, b :: bs, c :: cs, h, h' => by
    simp only [pathLt] at h h' ⊢
    by_cases hab : charListLt a.data b.data = true
    · by_cases hbc : charListLt b.data c.data = true
      · simp [charListLt_trans hab hbc]
      · replace hbc : charListLt b.data c.data = false := by simpa using hbc
        by_cases hcb : charListLt c.data b.data = true
        · simp [hbc, hcb] at h'
        · replace hcb : charListLt c.data b.data = false := by simpa using hcb
          have : b.data = c.data := charListLt_eq_of_not hbc hcb
          simp [← this, hab]
    · replace hab : charListLt a.data b.data = false := by simpa using hab
      by_cases hba : charListLt b.data a.data = true
      · simp [hab, hba] at h
      · replace hba : charListLt b.data a.data = false := by simpa using hba
        have hd : a.data = b.data := charListLt_eq_of_not hab hba
        simp only [hab, hba, Bool.false_eq_true, if_false] at h
        by_cases hbc : charListLt b.data c.data = true
        · simp [hd ▸ hbc]
        · replace hbc : charListLt b.data c.data = false := by simpa using hbc
          by_cases hcb : charListLt c.data b.data = true
          · simp [hbc, hcb] at h'
          · replace hcb : charListLt c.data b.data = false := by simpa using hcb
            simp only [hbc, hcb, Bool.false_eq_true, if_false] at h'
            simp only [hd ▸ hbc, hd ▸ hcb, Bool.false_eq_true, if_false]
            exact pathLt_trans h h'

instance : IsTotal Entry entryLe where
  total e f := by
    unfold entryLe
    by_cases h : pathLt f.path e.path = true
    · exact Or.inr (pathLt_asymm h)
    · exact Or.inl (by simpa using h)

instance : IsTrans Entry entryLe where
  trans e f g h h' := by
    unfold entryLe at h h' ⊢
    by_cases hge : pathLt g.path e.path = true
    · exfalso
      by_cases hef : pathLt e.path f.path = true
      · have : pathLt g.path f.path = true := pathLt_trans hge hef
        rw [h'] at this
        exact Bool.false_ne_true this
      · replace hef : pathLt e.path f.path = false := by simpa using hef
        have hEq : e.path = f.path := pathLt_eq_of_not hef h
        rw [hEq] at hge
        rw [h'] at hge
        exact Bool.false_ne_true hge
    · simpa using hge

/-! ### Substituting a match by itself is the identity -/

theorem token_append_drop {p : Pattern} {c : Char} {rest : List Char}
    (hp : p.token.isPrefixOf (c :: rest) = true) (hne : p.token ≠ []) :
    p.token ++ rest.drop (p.token.length - 1) = c :: rest := by
  match p, hne with
  | ⟨t :: ts, b1, b2⟩, _ =>
    simp only [List.isPrefixOf_iff_prefix] at hp
    rcases (List.cons_prefix_cons.mp hp) with ⟨rfl, hts⟩
    have := List.prefix_iff_eq_take.mp hts
    simp only [List.length_cons, Nat.add_sub_cancel]
    calc t :: ts ++ rest.drop ts.length
        = t :: (rest.take ts.length ++ rest.drop ts.length) := by rw [← this]; rfl
      _ = t :: rest := by rw [List.take_append_drop]

/-- Substituting every match by the plain matched token copies the scanned
text: the emitted token followed by the characters consumed during the skip
phase restores the original characters. -/
theorem subFrom_token {p : Pattern} (hne : p.token ≠ []) :
    ∀ (l : List Char) (skip : Nat) (prev : Option Char),
      subFrom p p.token skip prev l = l.drop skip
  | [], skip, prev => by
    rw [subFrom]
    simp
  | c :: rest, sk + 1, prev => by
    rw [subFrom]
    rw [subFrom_token hne rest sk (some c)]
    rfl
  | c :: rest, 0, prev => by
    rw [subFrom]
    by_cases hm : matchesHere p prev (c :: rest) = true
    · simp only [hm, if_true]
      have hpre : p.token.isPrefixOf (c :: rest) = true := by
        simp only [matchesHere, Bool.and_eq_true] at hm
        exact hm.1.1
      rw [subFrom_token hne rest (p.token.length - 1) (some c)]
      rw [List.drop_zero]
      exact token_append_drop hpre hne
    · have hm' : matchesHere p prev (c :: rest) = false := by
        simpa using hm
      rw [hm']
      simp only [Bool.false_eq_true, if_false]
      rw [subFrom_token hne rest 0 (some c)]
      rfl

/-- Substituting each match by the plain matched text leaves the line
unchanged. -/
theorem subColor_false {p : Pattern} (hne : p.token ≠ []) (l : List Char) :
    subColor false p l = l := by
  unfold subColor sub replFor
  simp only [Bool.false_eq_true, if_false]
  rw [subFrom_token hne l 0 none]
  rfl

/-- With color off, highlight rendering is the identity on the line. -/
theorem highlightLine_false {hits : List Pattern} (l : List Char)
    (hne : ∀ p ∈ hits, p.token ≠ []) : highlightLine false hits l = l := by
  induction hits generalizing l with
  | nil => rfl
  | cons p ps ih =>
    unfold highlightLine at ih ⊢
    simp only [List.foldl_cons]
    rw [subColor_false (hne p (by simp)) l]
    exact ih l (fun q hq => hne q (by simp [hq]))

/-! ### One substitution pass splits its text into gaps around the matches -/

theorem subGaps_ne_nil (p : Pattern) :
    ∀ (l : List Char) (skip : Nat) (prev : Option Char),
      subGaps p skip prev l ≠ []
  | [], _, _ => by
    rw [subGaps]
    simp
  | c :: rest, sk + 1, prev => by
    rw [subGaps]
    exact subGaps_ne_nil p rest sk (some c)
  | c :: rest, 0, prev => by
    rw [subGaps]
    by_cases hm : matchesHere p prev (c :: rest) = true
    · simp [hm]
    · have hm' : matchesHere p prev (c :: rest) = false := by simpa using hm
      rw [hm']
      simp only [Bool.false_eq_true, if_false]
      split <;> simp

/-- The output of one substitution pass is exactly its gaps interleaved with
the replacement string: the gaps are copied unchanged and every matched
occurrence becomes one copy of the replacement. -/
theorem subFrom_eq_joinGaps (p : Pattern) (repl : List Char) :
    ∀ (l : List Char) (skip : Nat) (prev : Option Char),
      subFrom p repl skip prev l = joinGaps repl (subGaps p skip prev l)
  | [], _, _ => by
    rw [subFrom, subGaps]
    rfl
  | c :: rest, sk + 1, prev => by
    rw [subFrom, subGaps]
    exact subFrom_eq_joinGaps p repl rest sk (some c)
  | c :: rest, 0, prev => by
    rw [subFrom, subGaps]
    by_cases hm : matchesHere p prev (c :: rest) = true
    · simp only [hm, if_true]
      rw [subFrom_eq_joinGaps p repl rest (p.token.length - 1) (some c)]
      cases hG : subGaps p (p.token.length - 1) (some c) rest with
      | nil => exact absurd hG (subGaps_ne_nil p rest _ _)
      | cons g gs =>
        simp [joinGaps, List.append_assoc]
    · have hm' : matchesHere p prev (c :: rest) = false := by simpa using hm
      rw [hm']
      simp only [Bool.false_eq_true, if_false]
      rw [subFrom_eq_joinGaps p repl rest 0 (some c)]
      cases hG : subGaps p 0 (some c) rest with
      | nil => exact absurd hG (subGaps_ne_nil p rest _ _)
      | cons g gs =>
        simp [joinGaps]

/-- The gaps of a pass reassemble to the scanned text when interleaved with
the matched token itself: the gaps are the non-matched stretches of the
original text. -/
theorem joinGaps_token {p : Pattern} (hne : p.token ≠ []) (l : List Char) :
    joinGaps p.token (subGaps p 0 none l) = l := by
  rw [← subFrom_eq_joinGaps]
  rw [subFrom_token hne l 0 none]
  rfl

/-- In terminal mode one substitution pass emits its gaps unchanged and every
matched occurrence wrapped in the color markers. -/
theorem subColor_true_joinGaps (p : Pattern) (l : List Char) :
    subColor true p l =
      joinGaps (RED.data ++ p.token ++ RESET.data) (subGaps p 0 none l) := by
  unfold subColor sub replFor
  simp only [if_true]
  exact subFrom_eq_joinGaps p _ l 0 none

/-! ### The recorded hit set of a line -/

/-- The hit matchers of a line are those matchers of the table that fire on
it, kept in table order: the whole table is tested, not first-match-wins. -/
theorem lineHits_eq_filter (nits : List (Pattern × String)) (line : String) :
    lineHits nits line = (nits.map Prod.fst).filter fun p => search p line.data := by
  induction nits with
  | nil => rfl
  | cons pr rest ih =>
    simp only [lineHits, List.filterMap_cons, List.map_cons, List.filter_cons] at ih ⊢
    by_cases h : search pr.1 line.data = true
    · simp [h, ih]
    · simp only [Bool.not_eq_true] at h
      simp [h, ih]

theorem mem_lineHits {nits : List (Pattern × String)} {line : String}
    {p : Pattern} (h : p ∈ lineHits nits line) : p ∈ nits.map Prod.fst := by
  rw [lineHits_eq_filter] at h
  exact List.mem_of_mem_filter h

/-- Every matcher of the rule table has a non-empty token. -/
theorem NITS_tokens_ne : ∀ p ∈ NITS.map Prod.fst, p.token ≠ [] := by decide

/-! ### Scanning the lines of one file -/

theorem scanLinesAux_mem {nits : List (Pattern × String)} :
    ∀ {n : Nat} {lines : List String} {m : LineMatch},
      m ∈ scanLinesAux nits n lines →
      n ≤ m.lineNum ∧ lines.get? (m.lineNum - n) = some m.text ∧
        m.hits = lineHits nits m.text := by
  intro n lines
  induction lines generalizing n with
  | nil => intro m hm; simp [scanLinesAux] at hm
  | cons line rest ih =>
    intro m hm
    rw [scanLinesAux] at hm
    by_cases h : (lineHits nits line).isEmpty = true
    · rw [if_pos h] at hm
      rcases ih hm with ⟨h1, h2, h3⟩
      refine ⟨Nat.le_of_succ_le h1, ?_, h3⟩
      have hn : m.lineNum - n = (m.lineNum - (n + 1)) + 1 := by omega
      rw [hn]
      simpa using h2
    · rw [if_neg h] at hm
      rcases List.mem_cons.mp hm with hEq | hMem
      · subst hEq
        exact ⟨Nat.le_refl _, by simp, rfl⟩
      · rcases ih hMem with ⟨h1, h2, h3⟩
        refine ⟨Nat.le_of_succ_le h1, ?_, h3⟩
        have hn : m.lineNum - n = (m.lineNum - (n + 1)) + 1 := by omega
        rw [hn]
        simpa using h2

/-- Every recorded match of the scan of a line list: the line number is
1-based, names the matched line, and the hit set is the ordered filter of
the whole rule table. -/
theorem scanLines_mem {nits : List (Pattern × String)} {lines : List String}
    {m : LineMatch} (hm : m ∈ scanLines nits lines) :
    1 ≤ m.lineNum ∧ lines.get? (m.lineNum - 1) = some m.text ∧
      m.hits = lineHits nits m.text :=
  scanLinesAux_mem hm

/-! ### Spec-side comparison definitions -/

/-- Spec-side view of a report block: for every reported file its path line,
then one line per hit holding the number and the raw (unhighlighted) line
text, then a blank separator line. -/
def plainRender (reports : List (String × List LineMatch)) : List String :=
  reports.flatMap fun pr =>
    pr.1 :: pr.2.map (fun m => toString m.lineNum ++ ": " ++ m.text) ++ [""]

/-- Did this entry produce at least one hit line: it was not skipped, its
read succeeded, and some line of its text matches some rule. -/
def entryHasHit (nits : List (Pattern × String)) (e : Entry) : Bool :=
  !(e.path.any fun part => SKIP_DIRS.contains part) &&
    (match e.kind with
     | .file (.text s) => !(scanLines nits (splitlines s)).isEmpty
     | _ => false)

/-- The filesystem with every copy of entry e removed: the tree as it would
be if e did not exist. -/
def removeEntry (fs : FS) (e : Entry) : FS :=
  ⟨fs.entries.filter fun x => x != e⟩

/-- An entry whose read raises one of the two caught exceptions. -/
def unreadableEntry (e : Entry) : Prop :=
  e.kind = .file .undecodable ∨ e.kind = .file .permissionDenied

/-- Modelled from the spec: splitting file content into lines delimited
exactly by newline characters, with no trailing-newline artifact retained.
This is the reading of the line-splitting step the claim asserts, written
for comparison with the splitlines of the script. -/
def specSplitNewlines (s : List Char) : List (List Char) :=
  if s = [] then []
  else if s.getLast? = some '\n' then (s.splitOn '\n').dropLast
  else s.splitOn '\n'

/-- No character of s is a line boundary. -/
def noLineBreak (s : List Char) : Prop :=
  ∀ c ∈ s, isLineBreak c = false

instance (s : List Char) : Decidable (noLineBreak s) :=
  List.decidableBAll _ s

/-! ### The loop body for one file -/

/-- A skipped path component makes the loop body a no-op, whatever the
entry's kind or content. -/
theorem processFile_skip {nits : List (Pattern × String)} {color : Bool}
    {e : Entry} (h : e.path.any (fun part => SKIP_DIRS.contains part) = true) :
    processFile nits color e = .ok ([], none) := by
  unfold processFile
  rw [if_pos h]

/-- An unreadable file makes the loop body a no-op. -/
theorem processFile_unreadable {nits : List (Pattern × String)} {color : Bool}
    {e : Entry} (h : unreadableEntry e) :
    processFile nits color e = .ok ([], none) := by
  unfold processFile
  rcases h with h | h <;> rw [h] <;>
    by_cases hs : e.path.any (fun part => SKIP_DIRS.contains part) = true <;>
      simp [hs]

/-- The report and the abort behavior of the loop body do not depend on the
terminal flag. -/
theorem processFile_snd (nits : List (Pattern × String)) (c c' : Bool)
    (e : Entry) :
    (processFile nits c e).map Prod.snd = (processFile nits c' e).map Prod.snd := by
  unfold processFile
  by_cases hs : e.path.any (fun part => SKIP_DIRS.contains part) = true
  · rw [if_pos hs, if_pos hs]
  · rw [if_neg hs, if_neg hs]
    match e.kind with
    | .dir => rfl
    | .file .undecodable => rfl
    | .file .permissionDenied => rfl
    | .file (.text s) =>
      by_cases hm : (scanLines nits (splitlines s)).isEmpty = true
      · simp only [hm, if_true]
      · simp only [hm, Bool.false_eq_true, if_false]
        rfl

/-- String.mk is inverse to taking the character data. -/
theorem stringMk_data (s : String) : String.mk s.data = s := rfl

/-- What a successful loop body yields: the report is present exactly when
the entry produced a hit, and the printed lines are empty exactly when it is
absent. -/
theorem processFile_ok {nits : List (Pattern × String)} {color : Bool}
    {e : Entry} {pr : List String × Option (String × List LineMatch)}
    (h : processFile nits color e = .ok pr) :
    pr.2.isSome = entryHasHit nits e ∧ (pr.1 = [] ↔ pr.2.isSome = false) := by
  unfold processFile at h
  by_cases hs : e.path.any (fun part => SKIP_DIRS.contains part) = true
  · rw [if_pos hs] at h
    cases h
    refine ⟨?_, by simp⟩
    unfold entryHasHit
    rw [hs]
    rfl
  · rw [if_neg hs] at h
    replace hs : (e.path.any fun part => SKIP_DIRS.contains part) = false := by
      simpa using hs
    rcases hk : e.kind with _ | fd
    · simp only [hk] at h
      exact Except.noConfusion h
    · cases fd with
      | text s =>
        simp only [hk] at h
        by_cases hm : (scanLines nits (splitlines s)).isEmpty = true
        · rw [if_pos hm] at h
          cases h
          simp [entryHasHit, hs, hk, hm]
        · rw [if_neg hm] at h
          cases h
          simp only [entryHasHit, hs, hk]
          constructor
          · simp only [Bool.not_eq_true] at hm
            simp [hm]
          · simp
      | undecodable =>
        simp only [hk] at h
        cases h
        simp [entryHasHit, hs, hk]
      | permissionDenied =>
        simp only [hk] at h
        cases h
        simp [entryHasHit, hs, hk]

/-- The printed lines of a successful loop body, color off: exactly the
plain-text block of its report. -/
theorem processFile_plain {e : Entry}
    {pr : List String × Option (String × List LineMatch)}
    (h : processFile NITS false e = .ok pr) :
    pr.1 = (match pr.2 with
      | some r => r.1 :: r.2.map (fun m => toString m.lineNum ++ ": " ++ m.text) ++ [""]
      | none => []) := by
  unfold processFile at h
  by_cases hs : e.path.any (fun part => SKIP_DIRS.contains part) = true
  · rw [if_pos hs] at h
    cases h
    rfl
  · rw [if_neg hs] at h
    rcases hk : e.kind with _ | fd
    · simp only [hk] at h
      exact Except.noConfusion h
    · cases fd with
      | text s =>
        simp only [hk] at h
        by_cases hm : (scanLines NITS (splitlines s)).isEmpty = true
        · rw [if_pos hm] at h
          cases h
          rfl
        · rw [if_neg hm] at h
          cases h
          have hmap : (scanLines NITS (splitlines s)).map (renderMatch false) =
              (scanLines NITS (splitlines s)).map
                (fun m => toString m.lineNum ++ ": " ++ m.text) := by
            apply List.map_congr_left
            intro m hmem
            rcases scanLines_mem hmem with ⟨-, -, hhits⟩
            unfold renderMatch
            rw [highlightLine_false m.text.data
              (fun p hp => NITS_tokens_ne p (mem_lineHits (hhits ▸ hp)))]
          simp only [hmap]
      | undecodable =>
        simp only [hk] at h
        cases h
        rfl
      | permissionDenied =>
        simp only [hk] at h
        cases h
        rfl

/-! ### The file loop -/

/-- The reports, the any_hits flag, and abort behavior of the file loop do
not depend on the terminal flag. -/
theorem runFiles_snd (nits : List (Pattern × String)) (c c' : Bool) :
    ∀ l : List Entry,
      (runFiles nits c l).map (fun a => (a.reports, a.anyHits)) =
        (runFiles nits c' l).map (fun a => (a.reports, a.anyHits))
  | [] => rfl
  | e :: rest => by
    have hp := processFile_snd nits c c' e
    have ih := runFiles_snd nits c c' rest
    rw [runFiles, runFiles]
    cases hpc : processFile nits c e with
    | error err =>
      cases hpc' : processFile nits c' e with
      | error err' =>
        rw [hpc, hpc'] at hp
      | ok pr' =>
        rw [hpc, hpc'] at hp
        simp [Except.map] at hp
    | ok pr =>
      cases hpc' : processFile nits c' e with
      | error err' =>
        rw [hpc, hpc'] at hp
        simp [Except.map] at hp
      | ok pr' =>
        rw [hpc, hpc'] at hp
        simp only [Except.map, Except.ok.injEq] at hp
        cases hrc : runFiles nits c rest with
        | error err =>
          cases hrc' : runFiles nits c' rest with
          | error err2 =>
            rw [hrc, hrc'] at ih
          | ok acc' =>
            rw [hrc, hrc'] at ih
            simp [Except.map] at ih
        | ok acc =>
          cases hrc' : runFiles nits c' rest with
          | error err2 =>
            rw [hrc, hrc'] at ih
            simp [Except.map] at ih
          | ok acc' =>
            rw [hrc, hrc'] at ih
            simp only [Except.map, Except.ok.injEq, Prod.mk.injEq] at ih
            simp only [Except.map, Except.ok.injEq, Prod.mk.injEq]
            rw [hp, ih.1, ih.2]
            simp

/-- The any_hits flag of a completed loop is exactly "some candidate file
produced a hit", and the printed output is empty exactly when no file did. -/
theorem runFiles_hits (nits : List (Pattern × String)) (color : Bool) :
    ∀ (l : List Entry) (acc : ScanAcc), runFiles nits color l = .ok acc →
      acc.anyHits = l.any (entryHasHit nits) ∧ (acc.out = [] ↔ acc.anyHits = false)
  | [], acc, h => by
    cases h
    simp
  | e :: rest, acc, h => by
    rw [runFiles] at h
    cases hpc : processFile nits color e with
    | error err => rw [hpc] at h; cases h
    | ok pr =>
      rw [hpc] at h
      cases hrc : runFiles nits color rest with
      | error err => rw [hrc] at h; cases h
      | ok acc' =>
        rw [hrc] at h
        cases h
        rcases runFiles_hits nits color rest acc' hrc with ⟨ih1, ih2⟩
        rcases processFile_ok hpc with ⟨hp1, hp2⟩
        constructor
        · simp [hp1, ih1]
        · show pr.1 ++ acc'.out = [] ↔ (pr.2.isSome || acc'.anyHits) = false
          rw [List.append_eq_nil, hp2, ih2, Bool.or_eq_false_iff]

/-- With color off the printed lines of a completed loop are exactly the
plain-text blocks of its reports. -/
theorem runFiles_plain :
    ∀ (l : List Entry) (acc : ScanAcc), runFiles NITS false l = .ok acc →
      acc.out = plainRender acc.reports
  | [], acc, h => by
    cases h
    rfl
  | e :: rest, acc, h => by
    rw [runFiles] at h
    cases hpc : processFile NITS false e with
    | error err => rw [hpc] at h; cases h
    | ok pr =>
      rw [hpc] at h
      cases hrc : runFiles NITS false rest with
      | error err => rw [hrc] at h; cases h
      | ok acc' =>
        rw [hrc] at h
        cases h
        have ih := runFiles_plain rest acc' hrc
        have hp := processFile_plain hpc
        match hrep : pr.2 with
        | some r =>
          rw [hrep] at hp
          simp only [hrep, ih, hp, plainRender, List.flatMap_cons]
        | none =>
          rw [hrep] at hp
          simp [hrep, ih, hp]

/-- Entries whose loop body is a no-op can be dropped from the candidate
list without changing the loop's result. -/
theorem runFiles_filter_ne {nits : List (Pattern × String)} {color : Bool}
    {e : Entry} (h : processFile nits color e = .ok ([], none)) :
    ∀ l : List Entry,
      runFiles nits color (l.filter fun x => x != e) = runFiles nits color l
  | [] => rfl
  | x :: rest => by
    have ih := runFiles_filter_ne h rest
    by_cases hbe : (x != e) = true
    · simp only [List.filter_cons, hbe, if_true]
      rw [runFiles, runFiles, ih]
    · have hbe' : (x != e) = false := by simpa using hbe
      have hxe : x = e := by simpa using hbe'
      simp only [List.filter_cons, hbe', Bool.false_eq_true, if_false]
      rw [ih]
      subst hxe
      rw [runFiles, h]
      cases hrc : runFiles nits color rest with
      | error err => rfl
      | ok acc => simp

end HuntNits

namespace HuntNits

/-! ### Sorting commutes with dropping an entry -/

theorem filter_orderedInsert (p : Entry → Bool) (a : Entry) :
    ∀ l : List Entry, List.Sorted entryLe l →
      (List.orderedInsert entryLe a l).filter p =
        if p a then List.orderedInsert entryLe a (l.filter p) else l.filter p
  | [], _ => by
    by_cases hpa : p a = true
    · simp [List.orderedInsert, List.filter, hpa]
    · simp only [Bool.not_eq_true] at hpa
      simp [List.orderedInsert, List.filter, hpa]
  | b :: l, hs => by
    rcases List.sorted_cons.mp hs with ⟨hb, hs'⟩
    by_cases hab : entryLe a b
    · simp only [List.orderedInsert, if_pos hab]
      by_cases hpa : p a = true
      · by_cases hpb : p b = true
        · simp [List.filter_cons, hpa, hpb, List.orderedInsert, if_pos hab]
        · simp only [Bool.not_eq_true] at hpb
          simp only [List.filter_cons, hpa, hpb, if_true, Bool.false_eq_true,
            if_false]
          cases hfl : l.filter p with
          | nil => simp [List.orderedInsert]
          | cons c rest =>
            have hc : c ∈ l := by
              have : c ∈ l.filter p := by rw [hfl]; simp
              exact List.mem_of_mem_filter this
            have hac : entryLe a c := IsTrans.trans a b c hab (hb c hc)
            simp [List.orderedInsert, if_pos hac]
      · simp only [Bool.not_eq_true] at hpa
        simp [List.filter_cons, hpa]
    · simp only [List.orderedInsert, if_neg hab]
      have ih := filter_orderedInsert p a l hs'
      by_cases hpb : p b = true
      · simp only [List.filter_cons, hpb, if_true, ih]
        by_cases hpa : p a = true
        · simp [hpa, List.orderedInsert, if_neg hab]
        · simp only [Bool.not_eq_true] at hpa
          simp [hpa]
      · simp only [Bool.not_eq_true] at hpb
        simp only [List.filter_cons, hpb, Bool.false_eq_true, if_false, ih]

theorem filter_insertionSort (p : Entry → Bool) :
    ∀ l : List Entry,
      (l.insertionSort entryLe).filter p = (l.filter p).insertionSort entryLe
  | [] => rfl
  | a :: l => by
    have hs := List.sorted_insertionSort entryLe l
    simp only [List.insertionSort]
    rw [filter_orderedInsert p a _ hs]
    by_cases hpa : p a = true
    · simp only [List.filter_cons, hpa, if_true, List.insertionSort]
      rw [filter_insertionSort p l]
    · simp only [Bool.not_eq_true] at hpa
      simp only [List.filter_cons, hpa, Bool.false_eq_true, if_false]
      rw [filter_insertionSort p l]

/-! ### Removing an entry that the run ignores -/

theorem kosmosRoots_remove {fs : FS} {e : Entry} (he : isKosmosRoot e = false) :
    kosmosRoots (removeEntry fs e) = kosmosRoots fs := by
  unfold kosmosRoots removeEntry
  rw [List.filter_filter]
  apply List.filter_congr
  intro x _
  by_cases hx : isKosmosRoot x = true
  · have hxe : (x != e) = true := by
      by_cases hxa : x = e
      · rw [hxa] at hx
        rw [hx] at he
        exact absurd he (by simp)
      · simpa using hxa
    rw [hx, hxe]
    rfl
  · simp only [Bool.not_eq_true] at hx
    rw [hx]
    rfl

theorem filesUnder_remove (fs : FS) (d e : Entry) :
    filesUnder (removeEntry fs e) d = (filesUnder fs d).filter fun x => x != e := by
  unfold filesUnder removeEntry
  rw [List.filter_filter, List.filter_filter]
  apply List.filter_congr
  intro x _
  rw [Bool.and_comm]

theorem enumerateFiles_remove {fs : FS} {e : Entry}
    (he : isKosmosRoot e = false) :
    enumerateFiles (removeEntry fs e) = (enumerateFiles fs).filter fun x => x != e := by
  unfold enumerateFiles sortedRoots
  rw [kosmosRoots_remove he, List.filter_flatMap]
  congr 1
  funext d
  unfold sortedFilesUnder
  rw [filesUnder_remove, ← filter_insertionSort]

/-- Removing an entry the loop ignores leaves the whole run unchanged: the
run behaves as if the entry did not exist. -/
theorem run_remove {nits : List (Pattern × String)} {color : Bool} {fs : FS}
    {e : Entry} (he : isKosmosRoot e = false)
    (hp : processFile nits color e = .ok ([], none)) :
    run nits color (removeEntry fs e) = run nits color fs := by
  unfold run
  rw [enumerateFiles_remove he, runFiles_filter_ne hp]

end HuntNits

namespace HuntNits

/-! ### How splitlines cuts content -/

/-- After a line-ending carriage return, a directly following newline is
swallowed. -/
theorem splitlinesAux_swallow (acc t : List Char) :
    splitlinesAux true acc ('\n' :: t) = splitlinesAux false acc t := by
  rw [splitlinesAux]
  rfl

/-- When the remainder does not start with a newline, the afterCR state is
irrelevant. -/
theorem splitlinesAux_afterCR {t : List Char} (ht : t.head? ≠ some '\n')
    (acc : List Char) :
    splitlinesAux true acc t = splitlinesAux false acc t := by
  cases t with
  | nil => rfl
  | cons c rest =>
    have hc : (c == '\n') = false := by
      simp only [List.head?] at ht
      simpa using fun h => ht (by rw [h])
    rw [splitlinesAux, splitlinesAux]
    rw [hc]
    rfl

theorem splitlinesAux_cons_nobreak {c : Char} (hc : isLineBreak c = false)
    (acc t : List Char) :
    splitlinesAux false acc (c :: t) = splitlinesAux false (c :: acc) t := by
  rw [splitlinesAux]
  rw [if_neg (by simp), if_neg (by simp [hc])]

theorem splitlinesAux_cons_break {c : Char} (hc : isLineBreak c = true)
    (acc t : List Char) :
    splitlinesAux false acc (c :: t) =
      acc.reverse :: splitlinesAux (c == '\r') [] t := by
  rw [splitlinesAux]
  rw [if_neg (by simp), if_pos hc]

theorem splitlinesAux_shift :
    ∀ (s : List Char), noLineBreak s → ∀ (acc rest : List Char),
      splitlinesAux false acc (s ++ rest) = splitlinesAux false (s.reverse ++ acc) rest
  | [], _, acc, rest => by simp
  | c :: s, hnb, acc, rest => by
    have hc : isLineBreak c = false := hnb c (by simp)
    have hs : noLineBreak s := fun d hd => hnb d (by simp [hd])
    rw [List.cons_append, splitlinesAux_cons_nobreak hc]
    rw [splitlinesAux_shift s hs (c :: acc) rest]
    simp

/-- A break-free content is a single line (or nothing when empty). -/
theorem splitlinesList_nobreak {s : List Char} (hnb : noLineBreak s) :
    splitlinesList s = if s.isEmpty then [] else [s] := by
  unfold splitlinesList
  have hsh := splitlinesAux_shift s hnb [] []
  rw [List.append_nil] at hsh
  rw [hsh]
  rw [splitlinesAux]
  simp

/-- A line boundary other than a carriage return directly before a newline
ends the current line; the remaining content is split on its own. -/
theorem splitlinesList_break {s : List Char} (hnb : noLineBreak s) {c : Char}
    (hc : isLineBreak c = true) (t : List Char)
    (hcr : c = '\r' → t.head? ≠ some '\n') :
    splitlinesList (s ++ c :: t) = s :: splitlinesList t := by
  unfold splitlinesList
  rw [splitlinesAux_shift s hnb [] (c :: t), List.append_nil]
  rw [splitlinesAux_cons_break hc]
  by_cases hr : c = '\r'
  · rw [hr]
    rw [show (('\r' : Char) == '\r') = true from rfl]
    rw [splitlinesAux_afterCR (hcr hr)]
    simp
  · rw [show ((c == '\r') = false) from by simpa using hr]
    simp

/-- A carriage-return/newline pair counts as a single boundary. -/
theorem splitlinesList_crlf {s : List Char} (hnb : noLineBreak s)
    (t : List Char) :
    splitlinesList (s ++ '\r' :: '\n' :: t) = s :: splitlinesList t := by
  unfold splitlinesList
  rw [splitlinesAux_shift s hnb [] _, List.append_nil]
  rw [splitlinesAux_cons_break (by decide)]
  rw [show (('\r' : Char) == '\r') = true from rfl]
  rw [splitlinesAux_swallow]
  simp

end HuntNits

namespace HuntNits

/-! ### The run depends only on the matchers, never on the labels -/

theorem lineHits_congr {nits nits' : List (Pattern × String)}
    (h : nits.map Prod.fst = nits'.map Prod.fst) (line : String) :
    lineHits nits line = lineHits nits' line := by
  rw [lineHits_eq_filter, lineHits_eq_filter, h]

theorem scanLinesAux_congr {nits nits' : List (Pattern × String)}
    (h : nits.map Prod.fst = nits'.map Prod.fst) :
    ∀ (n : Nat) (lines : List String),
      scanLinesAux nits n lines = scanLinesAux nits' n lines
  | _, [] => rfl
  | n, line :: rest => by
    rw [scanLinesAux, scanLinesAux, lineHits_congr h,
      scanLinesAux_congr h (n + 1) rest]

theorem scanLines_congr {nits nits' : List (Pattern × String)}
    (h : nits.map Prod.fst = nits'.map Prod.fst) (lines : List String) :
    scanLines nits lines = scanLines nits' lines :=
  scanLinesAux_congr h 1 lines

theorem processFile_congr {nits nits' : List (Pattern × String)}
    (h : nits.map Prod.fst = nits'.map Prod.fst) (color : Bool) (e : Entry) :
    processFile nits color e = processFile nits' color e := by
  unfold processFile
  by_cases hs : e.path.any (fun part => SKIP_DIRS.contains part) = true
  · rw [if_pos hs, if_pos hs]
  · rw [if_neg hs, if_neg hs]
    simp only [scanLines_congr h]

theorem runFiles_congr {nits nits' : List (Pattern × String)}
    (h : nits.map Prod.fst = nits'.map Prod.fst) (color : Bool) :
    ∀ l : List Entry, runFiles nits color l = runFiles nits' color l
  | [] => rfl
  | e :: rest => by
    rw [runFiles, runFiles, processFile_congr h,
      runFiles_congr h color rest]

/-- The whole run is unchanged when every matcher is kept and only labels
change. -/
theorem run_congr {nits nits' : List (Pattern × String)}
    (h : nits.map Prod.fst = nits'.map Prod.fst) (color : Bool) (fs : FS) :
    run nits color fs = run nits' color fs := by
  unfold run
  rw [runFiles_congr h]

end HuntNits

namespace HuntNits

/-! ### Remaining helper lemmas for the claims -/

/-- An entry with a skipped path component is never a scan root: the skipped
directory names do not start with the root prefix. -/
theorem skip_not_root {e : Entry}
    (h : e.path.any (fun part => SKIP_DIRS.contains part) = true) :
    isKosmosRoot e = false := by
  rcases e with ⟨path, kind⟩
  rcases path with _ | ⟨n, _ | ⟨m, rest⟩⟩
  · simp at h
  · cases kind with
    | dir =>
      simp only [List.any_cons, List.any_nil, Bool.or_false] at h
      have hn : n ∈ SKIP_DIRS := by simpa using h
      have hall : ∀ x ∈ SKIP_DIRS, ("kosmos".data.isPrefixOf x.data) = false := by
        decide
      simpa [isKosmosRoot] using hall n hn
    | file fd => rfl
  · cases kind <;> rfl

/-- An unreadable entry is a file, hence never a scan root. -/
theorem unreadable_not_root {e : Entry} (h : unreadableEntry e) :
    isKosmosRoot e = false := by
  rcases e with ⟨path, kind⟩
  rcases h with h | h <;>
    (simp only at h; subst h; rcases path with _ | ⟨n, _ | ⟨m, rest⟩⟩ <;> rfl)

/-- The matcher of Rule A does not fire when its token is directly preceded
by a word character. -/
theorem search_patEq_prefixed (c : Char) (h : isWordChar c = true) :
    search patEq (c :: "eq.eqv(x)".data) = false := by
  show searchFrom patEq none
    (c :: 'e' :: 'q' :: '.' :: 'e' :: 'q' :: 'v' :: '(' :: 'x' :: ')' :: []) = false
  rw [searchFrom]
  have h1 : matchesHere patEq none
      (c :: 'e' :: 'q' :: '.' :: 'e' :: 'q' :: 'v' :: '(' :: 'x' :: ')' :: []) = false := by
    unfold matchesHere
    have hpre : (patEq.token.isPrefixOf
        (c :: 'e' :: 'q' :: '.' :: 'e' :: 'q' :: 'v' :: '(' :: 'x' :: ')' :: [])) =
        (('e' == c) && false) := by
      show (('e' == c) &&
        ("q.eqv(".data.isPrefixOf
          ('e' :: 'q' :: '.' :: 'e' :: 'q' :: 'v' :: '(' :: 'x' :: ')' :: []))) =
        (('e' == c) && false)
      have hrest : ("q.eqv(".data.isPrefixOf
          ('e' :: 'q' :: '.' :: 'e' :: 'q' :: 'v' :: '(' :: 'x' :: ')' :: [])) = false := by
        decide
      rw [hrest]
    rw [hpre]
    simp
  rw [h1, Bool.false_or]
  rw [searchFrom]
  have h2 : matchesHere patEq (some c)
      ('e' :: 'q' :: '.' :: 'e' :: 'q' :: 'v' :: '(' :: 'x' :: ')' :: []) = false := by
    simp only [matchesHere, boundaryBeforeOk, patEq, h]
    simp
  rw [h2, Bool.false_or]
  decide

/-! ### Concrete filesystems used to witness the claims -/

/-- Two scan roots with one hit file each, listed in iteration order b
before a. -/
def fsBA : FS :=
  ⟨[⟨["kosmos-b"], .dir⟩, ⟨["kosmos-b", "B.kt"], .file (.text "eq.eqv(x)")⟩,
    ⟨["kosmos-a"], .dir⟩, ⟨["kosmos-a", "A.kt"], .file (.text "pr.render(y)")⟩]⟩

/-- The same tree listed in iteration order a before b. -/
def fsAB : FS :=
  ⟨[⟨["kosmos-a"], .dir⟩, ⟨["kosmos-a", "A.kt"], .file (.text "pr.render(y)")⟩,
    ⟨["kosmos-b"], .dir⟩, ⟨["kosmos-b", "B.kt"], .file (.text "eq.eqv(x)")⟩]⟩

/-- The run outcome on that tree: kosmos-a's block before kosmos-b's. -/
def resAB : RunResult :=
  ⟨["kosmos-a/A.kt", "1: pr.render(y)", "", "kosmos-b/B.kt", "1: eq.eqv(x)", ""],
   [("kosmos-a/A.kt", [⟨1, "pr.render(y)", [patPr]⟩]),
    ("kosmos-b/B.kt", [⟨1, "eq.eqv(x)", [patEq]⟩])], 1⟩

/-- One scan root with a single hit file. -/
def fsHit : FS :=
  ⟨[⟨["kosmos-a"], .dir⟩, ⟨["kosmos-a", "A.kt"], .file (.text "eq.eqv(x)")⟩]⟩

/-- The run outcome on fsHit. -/
def rHit : RunResult :=
  ⟨["kosmos-a/A.kt", "1: eq.eqv(x)", ""],
   [("kosmos-a/A.kt", [⟨1, "eq.eqv(x)", [patEq]⟩])], 1⟩

/-- The rule table with every label changed and every matcher kept. -/
def NITSrelabeled : List (Pattern × String) :=
  [(patEq, ""), (patPr, "other"), (patPrintable, "x")]

/-- File content with a vertical tab between two rule tokens. -/
def vtContent : String := "pr.render(x)\x0beq.eqv(y)"

/-- A scan root containing a subdirectory whose name ends in ".kt". -/
def fsCrash : FS :=
  ⟨[⟨["kosmos-a"], .dir⟩, ⟨["kosmos-a", "foo.kt"], .dir⟩]⟩

/-- A hit file under a build directory nested below the scan root. -/
def skippedEntry : Entry :=
  ⟨["kosmos-a", "build", "sub", "Main.kt"], .file (.text "eq.eqv(x)")⟩

/-- A tree holding the skipped hit file. -/
def fsSkip : FS :=
  ⟨[⟨["kosmos-a"], .dir⟩, skippedEntry]⟩

/-- A file whose read is denied. -/
def deniedEntry : Entry := ⟨["kosmos-a", "bad.kt"], .file .permissionDenied⟩

/-- A tree holding the denied file next to a clean readable file. -/
def fsDenied : FS :=
  ⟨[⟨["kosmos-a"], .dir⟩, deniedEntry,
    ⟨["kosmos-a", "good.kt"], .file (.text "clean line")⟩]⟩

end HuntNits

namespace HuntNits

/-! ### The claims -/

/-- Claim C1, counterexample.  On the line "eq.eqv(pr.render(x))" both Rule A
and Rule B are hit rules, yet the terminal-mode rendering emphasizes only the
Rule A match: the reset marker inserted after "eq.eqv(" ends in the word
character m, which destroys the leading word boundary of the directly
following "pr.render(", so Rule B's substitution pass leaves the
already-substituted text unchanged and its match is not emphasized.  This
refutes both "the rendered line emphasizes every substring matched by every
hit rule" and "all emphasis markers are non-word characters". -/
theorem claim_C1_counterexample :
    lineHits NITS "eq.eqv(pr.render(x))" = [patEq, patPr]
    ∧ highlightLine true [patEq, patPr] "eq.eqv(pr.render(x))".data =
        ("\x1b[91meq.eqv(\x1b[0mpr.render(x))").data
    ∧ subColor true patPr (("\x1b[91meq.eqv(\x1b[0mpr.render(x))").data) =
        ("\x1b[91meq.eqv(\x1b[0mpr.render(x))").data
    ∧ isWordChar 'm' = true ∧ isWordChar '0' = true := by
  refine ⟨?_, ?_, ?_, ?_, ?_⟩ <;> decide

/-- Claim C1, as amended.  Terminal-mode rendering applies the hit rules'
substitution passes in the fixed rule order, a later rule's pass operating
on the already-substituted text (first conjunct, for every color, rule and
text).  For every rule of the table and every text, one terminal-mode pass
emphasizes every substring of the text it receives that its rule matches and
leaves every other character of that text unchanged: the pass splits its
input into the non-matched stretches around the matched occurrences of the
token (the gaps reassemble to the input when interleaved with the bare
token) and its output is those same stretches interleaved with the
marker-wrapped matched text (second conjunct).  End-to-end emphasis of every
hit rule's occurrence in the original line therefore holds whenever no
marker insertion lands directly before a later rule's token — as on the
spec's own two-token line, where both rules' substrings are emphasized and
all other text is unchanged (last conjuncts) — but not in general, because
the markers contain word characters (the counterexample). -/
theorem claim_C1_amended :
    (∀ (color : Bool) (q : Pattern) (qs : List Pattern) (l : List Char),
      highlightLine color (q :: qs) l = highlightLine color qs (subColor color q l))
    ∧ (∀ p ∈ NITS.map Prod.fst, ∀ l : List Char,
        joinGaps p.token (subGaps p 0 none l) = l
        ∧ subColor true p l =
            joinGaps (RED.data ++ p.token ++ RESET.data) (subGaps p 0 none l))
    ∧ lineHits NITS "val a = eq.eqv(x) && pr.render(y)" = [patEq, patPr]
    ∧ highlightLine true [patEq, patPr] "val a = eq.eqv(x) && pr.render(y)".data =
        ("val a = \x1b[91meq.eqv(\x1b[0mx) && \x1b[91mpr.render(\x1b[0my)").data := by
  refine ⟨?_, ?_, ?_, ?_⟩
  · intro color q qs l
    rfl
  · intro p hp l
    exact ⟨joinGaps_token (NITS_tokens_ne p hp) l, subColor_true_joinGaps p l⟩
  · decide
  · decide

/-- Claim C1, witness for the amended theorem: Rule A on a line holding two
separated occurrences of its token. -/
theorem claim_C1_amended_witness :
    patEq ∈ NITS.map Prod.fst
    ∧ (joinGaps patEq.token (subGaps patEq 0 none "eq.eqv(a) and eq.eqv(b)".data) =
        "eq.eqv(a) and eq.eqv(b)".data
      ∧ subColor true patEq "eq.eqv(a) and eq.eqv(b)".data =
          joinGaps (RED.data ++ patEq.token ++ RESET.data)
            (subGaps patEq 0 none "eq.eqv(a) and eq.eqv(b)".data)) :=
  ⟨by decide, claim_C1_amended.2.1 patEq (by decide) "eq.eqv(a) and eq.eqv(b)".data⟩

/-- Claim C2.  For every completed run the exit code is 1 exactly when some
candidate file produced a hit line and 0 otherwise, the output is empty
exactly when no file did, no hits imply empty output with exit 0, and no
other exit code occurs. -/
theorem claim_C2_exit_status (color : Bool) (fs : FS) (r : RunResult)
    (h : run NITS color fs = .ok r) :
    r.exitCode =
      (if (enumerateFiles fs).any (entryHasHit NITS) = true then 1 else 0)
    ∧ (r.output = [] ↔ (enumerateFiles fs).any (entryHasHit NITS) = false)
    ∧ ((enumerateFiles fs).any (entryHasHit NITS) = false →
        r.output = [] ∧ r.exitCode = 0)
    ∧ (r.exitCode = 0 ∨ r.exitCode = 1) := by
  unfold run at h
  cases hr : runFiles NITS color (enumerateFiles fs) with
  | error err =>
    rw [hr] at h
    cases h
  | ok acc =>
    rw [hr] at h
    cases h
    rcases runFiles_hits NITS color _ acc hr with ⟨h1, h2⟩
    have hexit : (if acc.anyHits = true then 1 else 0) =
        (if (enumerateFiles fs).any (entryHasHit NITS) = true then 1 else 0) := by
      rw [h1]
    have hout : acc.out = [] ↔ (enumerateFiles fs).any (entryHasHit NITS) = false := by
      rw [h2, h1]
    refine ⟨hexit, hout, ?_, ?_⟩
    · intro hno
      refine ⟨hout.mpr hno, ?_⟩
      show (if acc.anyHits = true then 1 else 0) = 0
      rw [h1, hno]
      rfl
    · show (if acc.anyHits = true then 1 else 0) = 0 ∨
        (if acc.anyHits = true then 1 else 0) = 1
      by_cases hh : acc.anyHits = true
      · right
        rw [hh]
        rfl
      · left
        simp only [Bool.not_eq_true] at hh
        rw [hh]
        rfl

/-- Claim C2, witness. -/
theorem claim_C2_witness :
    run NITS false fsHit = .ok rHit ∧
      (rHit.exitCode =
        (if (enumerateFiles fsHit).any (entryHasHit NITS) = true then 1 else 0)
      ∧ (rHit.output = [] ↔
          (enumerateFiles fsHit).any (entryHasHit NITS) = false)
      ∧ ((enumerateFiles fsHit).any (entryHasHit NITS) = false →
          rHit.output = [] ∧ rHit.exitCode = 0)
      ∧ (rHit.exitCode = 0 ∨ rHit.exitCode = 1)) :=
  ⟨by decide, claim_C2_exit_status false fsHit rHit (by decide)⟩

/-- Claim C3.  The terminal toggle is presentation-only: the reports (file
paths with their recorded matched lines) and the exit code of a run never
depend on it, an aborting run aborts identically, and with the toggle off
every printed hit line carries the source line text byte-identically, with
only the line-number prefix and path/separator framing around it. -/
theorem claim_C3_presentation_only (fs : FS) :
    ((run NITS true fs).map fun r => (r.reports, r.exitCode)) =
      ((run NITS false fs).map fun r => (r.reports, r.exitCode))
    ∧ ∀ r : RunResult, run NITS false fs = .ok r →
        r.output = plainRender r.reports := by
  constructor
  · have h := runFiles_snd NITS true false (enumerateFiles fs)
    unfold run
    cases h1 : runFiles NITS true (enumerateFiles fs) with
    | error err =>
      cases h2 : runFiles NITS false (enumerateFiles fs) with
      | error err2 => cases err; cases err2; rfl
      | ok acc =>
        rw [h1, h2] at h
        simp [Except.map] at h
    | ok acc =>
      cases h2 : runFiles NITS false (enumerateFiles fs) with
      | error err2 =>
        rw [h1, h2] at h
        simp [Except.map] at h
      | ok acc2 =>
        rw [h1, h2] at h
        simp only [Except.map, Except.ok.injEq, Prod.mk.injEq] at h
        simp only [Except.map, Except.ok.injEq, Prod.mk.injEq]
        exact ⟨h.1, by rw [h.2]⟩
  · intro r hr
    unfold run at hr
    cases h2 : runFiles NITS false (enumerateFiles fs) with
    | error err =>
      rw [h2] at hr
      cases hr
    | ok acc =>
      rw [h2] at hr
      cases hr
      exact runFiles_plain _ acc h2

/-- Claim C3, witness. -/
theorem claim_C3_witness :
    ((run NITS true fsHit).map fun r => (r.reports, r.exitCode)) =
      ((run NITS false fsHit).map fun r => (r.reports, r.exitCode))
    ∧ rHit.output = plainRender rHit.reports :=
  ⟨(claim_C3_presentation_only fsHit).1,
    (claim_C3_presentation_only fsHit).2 rHit (by decide)⟩

/-- Claim C4.  An entry with any path segment in the excluded-directory set
is skipped: its loop body prints nothing and records nothing, whatever its
content, and the whole run is exactly what it would be if the entry did not
exist.  The hypothesis ranges over every path segment, not just the
immediate parent. -/
theorem claim_C4_skip_dirs (color : Bool) (fs : FS) (e : Entry)
    (h : e.path.any (fun part => SKIP_DIRS.contains part) = true) :
    processFile NITS color e = .ok ([], none)
    ∧ run NITS color (removeEntry fs e) = run NITS color fs :=
  ⟨processFile_skip h, run_remove (skip_not_root h) (processFile_skip h)⟩

/-- Claim C4, witness: a hit-containing file under a build directory nested
below the root (build is not the immediate parent of the file). -/
theorem claim_C4_witness :
    skippedEntry.path.any (fun part => SKIP_DIRS.contains part) = true
    ∧ entryHasHit NITS skippedEntry = false
    ∧ (scanLines NITS (splitlines "eq.eqv(x)")).isEmpty = false
    ∧ (processFile NITS false skippedEntry = .ok ([], none)
       ∧ run NITS false (removeEntry fsSkip skippedEntry) =
           run NITS false fsSkip) :=
  ⟨by decide, by decide, by decide,
    claim_C4_skip_dirs false fsSkip skippedEntry (by decide)⟩

/-- Claim C5.  Rule A's matcher is word-boundary anchored: prefixing its
token with any word character suppresses the match, the longer-identifier
line "val y = myeq.eqv(x)" is not a hit for Rule A while the standalone
"val y = eq.eqv(x)" is, and the scanner records exactly that. -/
theorem claim_C5_word_boundary :
    (∀ c : Char, isWordChar c = true →
      search patEq (c :: "eq.eqv(x)".data) = false)
    ∧ search patEq "val y = myeq.eqv(x)".data = false
    ∧ search patEq "val y = eq.eqv(x)".data = true
    ∧ lineHits NITS "val y = myeq.eqv(x)" = []
    ∧ lineHits NITS "val y = eq.eqv(x)" = [patEq] := by
  refine ⟨search_patEq_prefixed, ?_, ?_, ?_, ?_⟩ <;> decide

/-- Claim C5, witness. -/
theorem claim_C5_witness :
    isWordChar 'm' = true ∧ search patEq ('m' :: "eq.eqv(x)".data) = false :=
  ⟨by decide, claim_C5_word_boundary.1 'm' (by decide)⟩

/-- Claim C6.  The visiting order is deterministic: the scanned roots are
sorted, every scanned root is an immediate child directory with the fixed
name prefix, the files of each root are sorted, and on the two-root tree the
report of kosmos-a's file precedes kosmos-b's whether the filesystem lists
the entries a-first or b-first. -/
theorem claim_C6_deterministic_order :
    (∀ fs : FS, List.Sorted entryLe (sortedRoots fs))
    ∧ (∀ (fs : FS) (e : Entry), e ∈ sortedRoots fs → isKosmosRoot e = true)
    ∧ (∀ (fs : FS) (d : Entry), List.Sorted entryLe (sortedFilesUnder fs d))
    ∧ run NITS false fsBA = .ok resAB
    ∧ run NITS false fsAB = .ok resAB := by
  refine ⟨?_, ?_, ?_, ?_, ?_⟩
  · intro fs
    exact List.sorted_insertionSort entryLe _
  · intro fs e he
    have hmem : e ∈ kosmosRoots fs := (List.mem_insertionSort entryLe).mp he
    exact List.of_mem_filter hmem
  · intro fs d
    exact List.sorted_insertionSort entryLe _
  · decide
  · decide

/-- Claim C6, witness. -/
theorem claim_C6_witness :
    (⟨["kosmos-a"], .dir⟩ : Entry) ∈ sortedRoots fsAB
    ∧ isKosmosRoot ⟨["kosmos-a"], .dir⟩ = true :=
  ⟨by decide,
    claim_C6_deterministic_order.2.1 fsAB ⟨["kosmos-a"], .dir⟩ (by decide)⟩

/-- Claim C7.  A file whose read raises a decoding or a permission error is
silently skipped: its loop body prints nothing and records nothing, and the
whole run, its exit status included, is exactly what it would be if the file
did not exist. -/
theorem claim_C7_unreadable_skip (color : Bool) (fs : FS) (e : Entry)
    (h : unreadableEntry e) :
    processFile NITS color e = .ok ([], none)
    ∧ run NITS color (removeEntry fs e) = run NITS color fs :=
  ⟨processFile_unreadable h,
    run_remove (unreadable_not_root h) (processFile_unreadable h)⟩

/-- Claim C7, witness. -/
theorem claim_C7_witness :
    unreadableEntry deniedEntry
    ∧ (processFile NITS false deniedEntry = .ok ([], none)
       ∧ run NITS false (removeEntry fsDenied deniedEntry) =
           run NITS false fsDenied) :=
  ⟨Or.inr rfl, claim_C7_unreadable_skip false fsDenied deniedEntry (Or.inr rfl)⟩

end HuntNits

namespace HuntNits

/-- Claim C8, counterexample.  File content holding a vertical tab between
two rule tokens: splitting "delimited exactly by newlines" would keep it one
line, but the script's splitlines cuts at the vertical tab, so the scan
records two lines numbered 1 and 2. -/
theorem claim_C8_counterexample :
    splitlines vtContent = ["pr.render(x)", "eq.eqv(y)"]
    ∧ specSplitNewlines vtContent.data = [vtContent.data]
    ∧ splitlinesList vtContent.data ≠ specSplitNewlines vtContent.data
    ∧ scanLines NITS (splitlines vtContent) =
        [⟨1, "pr.render(x)", [patPr]⟩, ⟨2, "eq.eqv(y)", [patEq]⟩] := by
  refine ⟨?_, ?_, ?_, ?_⟩ <;> decide

/-- Claim C8, as amended.  Content is split at every line-boundary character
of the text codec (newline, carriage return, carriage-return/newline as one
boundary, vertical tab, form feed and the further separator characters),
with no trailing artifact: break-free content is one line, a boundary ends
the line before it, and a carriage-return/newline pair is one boundary.  For
every recorded match, the line number is 1-based and names the matched line
of the split, and the recorded hit set is the ordered filter of the whole
rule table over that line (every rule tested, table order kept, not
first-match-wins). -/
theorem claim_C8_amended :
    (∀ s : List Char, noLineBreak s →
      splitlinesList s = if s.isEmpty then [] else [s])
    ∧ (∀ (s t : List Char) (c : Char), noLineBreak s → isLineBreak c = true →
        (c = '\r' → t.head? ≠ some '\n') →
        splitlinesList (s ++ c :: t) = s :: splitlinesList t)
    ∧ (∀ s t : List Char, noLineBreak s →
        splitlinesList (s ++ '\r' :: '\n' :: t) = s :: splitlinesList t)
    ∧ (∀ (nits : List (Pattern × String)) (lines : List String) (m : LineMatch),
        m ∈ scanLines nits lines →
        1 ≤ m.lineNum ∧ lines.get? (m.lineNum - 1) = some m.text ∧
          m.hits = (nits.map Prod.fst).filter fun p => search p m.text.data) := by
  refine ⟨?_, ?_, ?_, ?_⟩
  · intro s h
    exact splitlinesList_nobreak h
  · intro s t c h hc hcr
    exact splitlinesList_break h hc t hcr
  · intro s t h
    exact splitlinesList_crlf h t
  · intro nits lines m hm
    rcases scanLines_mem hm with ⟨h1, h2, h3⟩
    exact ⟨h1, h2, by rw [h3, lineHits_eq_filter]⟩

/-- Claim C8, witness. -/
theorem claim_C8_amended_witness :
    splitlinesList ("ab".data ++ '\x0b' :: "cd".data) =
      "ab".data :: splitlinesList "cd".data
    ∧ (1 ≤ (1 : Nat) ∧ ["eq.eqv(x)"].get? (1 - 1) = some "eq.eqv(x)" ∧
        (⟨1, "eq.eqv(x)", [patEq]⟩ : LineMatch).hits =
          (NITS.map Prod.fst).filter fun p => search p "eq.eqv(x)".data) :=
  ⟨claim_C8_amended.2.1 "ab".data "cd".data '\x0b'
      (by decide) (by decide) (by decide),
    claim_C8_amended.2.2.2 NITS ["eq.eqv(x)"] ⟨1, "eq.eqv(x)", [patEq]⟩
      (by decide)⟩

/-- Claim C9, counterexample.  Changing every rule label while keeping every
matcher leaves the run on a hit-producing tree byte-for-byte identical, in
plain and in terminal mode: the labels do not participate in the rendered
report (the emphasized text is the matched text, not the label). -/
theorem claim_C9_counterexample :
    NITSrelabeled.map Prod.snd ≠ NITS.map Prod.snd
    ∧ run NITS false fsHit = .ok rHit
    ∧ run NITSrelabeled false fsHit = .ok rHit
    ∧ run NITSrelabeled true fsHit = run NITS true fsHit
    ∧ rHit.reports ≠ [] := by
  refine ⟨?_, ?_, ?_, ?_, ?_⟩ <;> decide

/-- Claim C9, as amended.  A rule's label is dead data for reporting: two
rule tables with the same matchers produce identical runs on every tree,
whatever their labels, so changing a label with the matcher unchanged cannot
change the output. -/
theorem claim_C9_amended (nits nits' : List (Pattern × String)) (color : Bool)
    (fs : FS) (h : nits.map Prod.fst = nits'.map Prod.fst) :
    run nits color fs = run nits' color fs :=
  run_congr h color fs

/-- Claim C9, witness. -/
theorem claim_C9_amended_witness :
    NITS.map Prod.fst = NITSrelabeled.map Prod.fst
    ∧ run NITS false fsHit = run NITSrelabeled false fsHit :=
  ⟨by decide, claim_C9_amended NITS NITSrelabeled false fsHit (by decide)⟩

/-- Claim C10.  The file enumeration matches any entry named "*.kt", a
directory included, and reading a directory raises an error outside the
caught set, so a matching-prefix root containing a subdirectory whose name
ends in ".kt" aborts the whole run, in plain and in terminal mode. -/
theorem claim_C10_directory_crash :
    enumerateFiles fsCrash = [⟨["kosmos-a", "foo.kt"], .dir⟩]
    ∧ run NITS false fsCrash = .error .isADirectory
    ∧ run NITS true fsCrash = .error .isADirectory := by
  refine ⟨?_, ?_, ?_⟩ <;> decide

end HuntNits
